import Mathlib

/-!
Shallow embedding of the binary heap from
`src/exercises/algorithm/algorithm9.rs`.

The Rust code implements a 1-indexed array-backed binary heap `Heap<T>`
with a pluggable comparator `fn(&T, &T) -> bool`, insertion with a
bubble-up loop, and extraction (`Iterator::next`) with a bubble-down loop.
The backing `Vec<T>` is modelled by `List α`, indexing by `List.getD`
(every access the code performs is proved in bounds for reachable states),
`T::default()` by `Inhabited.default`, and the two `while` loops by
structurally recursive functions carrying an explicit iteration bound
(`fuel`); the bounds used by the wrappers are proved sufficient, i.e. the
loops always exit through their own exit conditions before the bound is hit.
-/

namespace HeapSpec

variable {α : Type} [Inhabited α]

/-- The heap record: live element count, 1-indexed backing sequence
(index 0 is the placeholder slot), and the ordering predicate.
Mirrors `struct Heap<T> { count, items, comparator }`. -/
structure Heap (α : Type) where
  count : Nat
  items : List α
  comparator : α → α → Bool

/-- Rust `parent_idx`: `idx / 2`. -/
def parent_idx (idx : Nat) : Nat := idx / 2

/-- Rust `left_child_idx`: `idx * 2`. -/
def left_child_idx (idx : Nat) : Nat := idx * 2

/-- Rust `right_child_idx`: `left_child_idx(idx) + 1`. -/
def right_child_idx (idx : Nat) : Nat := left_child_idx idx + 1

/-- Rust `children_present`: `left_child_idx(idx) <= count`
(`count` is the `self.count` the method reads). -/
def children_present (count idx : Nat) : Bool := left_child_idx idx ≤ count

/-- `Vec::swap`-style exchange of two positions of a list, both values read
from the original list. -/
def swapL (l : List α) (i j : Nat) : List α :=
  (l.set i (l.getD j default)).set j (l.getD i default)

/-- Rust `smallest_child_idx`: the child of `idx` preferred by the
comparator (`count`, `items` are the fields of `self` the method reads). -/
def smallest_child_idx (cmp : α → α → Bool) (count : Nat) (items : List α)
    (idx : Nat) : Nat :=
  let left_idx := left_child_idx idx
  let right_idx := right_child_idx idx
  if count < left_idx then idx
  else if count < right_idx then left_idx
  else if cmp (items.getD left_idx default) (items.getD right_idx default) then left_idx
  else right_idx

/-- The bubble-up `while` loop of Rust `add`, with an explicit iteration
bound `fuel` (the loop body of one `fuel+1` step is the literal loop body:
stop at the root or when the parent already takes priority, otherwise swap
with the parent and continue there). `bubbleUp` below instantiates
`fuel := idx`, which `bubbleUpAux_stable` proves is never exhausted. -/
def bubbleUpAux (cmp : α → α → Bool) : List α → Nat → Nat → List α
  | items, _, 0 => items
  | items, idx, fuel + 1 =>
    if 1 < idx then
      if cmp (items.getD (parent_idx idx) default) (items.getD idx default) then
        items
      else
        bubbleUpAux cmp (swapL items (parent_idx idx) idx) (parent_idx idx) fuel
    else items

/-- The bubble-up loop of `add`, started at `idx` (the index where the new
element was just placed). -/
def bubbleUp (cmp : α → α → Bool) (items : List α) (idx : Nat) : List α :=
  bubbleUpAux cmp items idx idx

/-- Rust `add`: increment `count`, place the value at index `count`
(pushing when the vector has no stale slot there), then bubble up. -/
def Heap.add (h : Heap α) (value : α) : Heap α :=
  let count := h.count + 1
  let items :=
    if h.items.length ≤ count then h.items ++ [value]
    else h.items.set count value
  { h with count := count, items := bubbleUp h.comparator items count }

/-- The bubble-down `while` loop of Rust `next`, with an explicit iteration
bound `fuel` (one `fuel+1` step is the literal loop body: while a child is
present, stop when the current element takes priority over the preferred
child, otherwise swap with it and continue there). `bubbleDown` below
instantiates `fuel := count + 1`, which `bubbleDownAux_stable` proves is
never exhausted for the entry index 1. -/
def bubbleDownAux (cmp : α → α → Bool) (count : Nat) : List α → Nat → Nat → List α
  | items, _, 0 => items
  | items, idx, fuel + 1 =>
    if children_present count idx then
      let c := smallest_child_idx cmp count items idx
      if cmp (items.getD idx default) (items.getD c default) then items
      else bubbleDownAux cmp count (swapL items idx c) c fuel
    else items

/-- The bubble-down loop of `next`, started at the root. -/
def bubbleDown (cmp : α → α → Bool) (count : Nat) (items : List α) (idx : Nat) :
    List α :=
  bubbleDownAux cmp count items idx (count + 1)

/-- Rust `Heap::new`: empty heap with a single default placeholder. -/
def Heap.new (cmp : α → α → Bool) : Heap α :=
  { count := 0, items := [default], comparator := cmp }

/-- Rust `len`: returns `count`. -/
def Heap.len (h : Heap α) : Nat := h.count

/-- Rust `is_empty`: `len() == 0`. -/
def Heap.is_empty (h : Heap α) : Bool := h.len == 0

/-- Rust `Iterator::next` for `Heap<T>`: returns the extracted value (if
any) together with the updated heap (`&mut self` is modelled by returning
the new state). Follows the source line by line: empty check; save the
root, defaulting its slot; move the last live element to the root,
defaulting its slot; decrement `count`; early return when now empty;
otherwise bubble down from the root. -/
def Heap.next (h : Heap α) : Option α × Heap α :=
  if h.count = 0 then (none, h)
  else
    let root_value := h.items.getD 1 default
    let items1 := h.items.set 1 default
    let last_value := items1.getD h.count default
    let items2 := (items1.set h.count default).set 1 last_value
    let count2 := h.count - 1
    if count2 = 0 then (some root_value, { h with count := count2, items := items2 })
    else
      (some root_value,
        { h with count := count2,
                 items := bubbleDown h.comparator count2 items2 1 })

/-- The min-heap comparator of `new_min` / `MinHeap::new`: `|a, b| a < b`. -/
def minCmp {β : Type} [LinearOrder β] : β → β → Bool := fun a b => decide (a < b)

/-- The max-heap comparator of `new_max` / `MaxHeap::new`: `|a, b| a > b`. -/
def maxCmp {β : Type} [LinearOrder β] : β → β → Bool := fun a b => decide (a > b)

/-- Rust `Heap::new_min` (also `MinHeap::new`). -/
def Heap.new_min {β : Type} [Inhabited β] [LinearOrder β] : Heap β :=
  Heap.new minCmp

/-- Rust `Heap::new_max` (also `MaxHeap::new`). -/
def Heap.new_max {β : Type} [Inhabited β] [LinearOrder β] : Heap β :=
  Heap.new maxCmp

/-- Heap states reachable from construction by `add` and extraction calls:
the "after every sequence of add and extraction calls" of the spec. -/
inductive Reachable : Heap α → Prop
  | new (cmp : α → α → Bool) : Reachable (Heap.new cmp)
  | add {h : Heap α} (v : α) : Reachable h → Reachable (h.add v)
  | next {h : Heap α} : Reachable h → Reachable h.next.2

/-- Iterate the extraction operation `k` times, keeping only the heap. -/
def nextIter (h : Heap α) : Nat → Heap α
  | 0 => h
  | k + 1 => (nextIter h k).next.2

/-- The heap obtained from `new(cmp)` by adding the values of `vs` in order. -/
def buildHeap (cmp : α → α → Bool) (vs : List α) : Heap α :=
  vs.foldl Heap.add (Heap.new cmp)

/-- The list of values produced by up to `fuel` consecutive extractions
(stopping at the first extraction that yields no value). -/
def drain : Heap α → Nat → List α
  | _, 0 => []
  | h, fuel + 1 =>
    match h.next with
    | (some v, h2) => v :: drain h2 fuel
    | (none, _) => []

/-- A caller-visible operation on the heap: an `add` call or an
extraction call. -/
inductive Op (α : Type) where
  | add (v : α) : Op α
  | extract : Op α

/-- Apply one operation to a heap state. -/
def applyOp (h : Heap α) : Op α → Heap α
  | Op.add v => h.add v
  | Op.extract => h.next.2

/-- Run an interleaved sequence of operations from a starting state. -/
def runOps (h : Heap α) (ops : List (Op α)) : Heap α := ops.foldl applyOp h

/-- The number of `add` calls in an operation sequence. -/
def numAdds : List (Op α) → Nat
  | [] => 0
  | Op.add _ :: ops => numAdds ops + 1
  | Op.extract :: ops => numAdds ops

/-- The number of successful (`Some`-returning) extractions when running an
operation sequence from a given state. -/
def numSucc : Heap α → List (Op α) → Nat
  | _, [] => 0
  | h, Op.add v :: ops => numSucc (h.add v) ops
  | h, Op.extract :: ops => (if h.count = 0 then 0 else 1) + numSucc h.next.2 ops

/-- The heap property the bubble algorithms actually maintain: no live
element takes priority over its parent. (The spec phrases it as
`priority(items[parent(i)], items[i])`; for the strict comparators this
stronger form fails on equal elements, see the counterexample below.) -/
def heapInv (cmp : α → α → Bool) (count : Nat) (items : List α) : Prop :=
  ∀ i : Nat, 1 < i → i ≤ count →
    cmp (items.getD i default) (items.getD (parent_idx i) default) = false

/-- Laws of a strict-order comparator, satisfied by `minCmp` and `maxCmp`
over any linear order: asymmetry, transitivity, and transitivity of the
complement. -/
structure StrictCmp {β : Type} (cmp : β → β → Bool) : Prop where
  asymm : ∀ a b, cmp a b = true → cmp b a = false
  trans : ∀ a b c, cmp a b = true → cmp b c = true → cmp a c = true
  negtrans : ∀ a b c, cmp a b = false → cmp b c = false → cmp a c = false

/-- Intermediate state of the bubble-up loop with the moving element at
`j`: every parent-child pair except the one at `j` satisfies the heap
property, and (when `j` is not the root) the children of `j` already
satisfy it with respect to `j`'s parent. -/
def upInv (cmp : α → α → Bool) (count : Nat) (items : List α) (j : Nat) : Prop :=
  (∀ i : Nat, 1 < i → i ≤ count → i ≠ j →
    cmp (items.getD i default) (items.getD (parent_idx i) default) = false) ∧
  (1 < j → ∀ i : Nat, 1 < i → i ≤ count → parent_idx i = j →
    cmp (items.getD i default) (items.getD (parent_idx j) default) = false)

/-- Intermediate state of the bubble-down loop with the moving element at
`j`: every parent-child pair except those from `j` to its children
satisfies the heap property, and (when `j` is not the root) the children
of `j` already satisfy it with respect to `j`'s parent. -/
def downInv (cmp : α → α → Bool) (count : Nat) (items : List α) (j : Nat) : Prop :=
  (∀ i : Nat, 1 < i → i ≤ count → parent_idx i ≠ j →
    cmp (items.getD i default) (items.getD (parent_idx i) default) = false) ∧
  (1 < j → ∀ i : Nat, 1 < i → i ≤ count → parent_idx i = j →
    cmp (items.getD i default) (items.getD (parent_idx j) default) = false)

/-- The live region of the backing sequence: indices `1..=count`. -/
def liveL (count : Nat) (items : List α) : List α := (items.drop 1).take count

/-- The live elements of a heap, as a list. -/
def Heap.live (h : Heap α) : List α := liveL h.count h.items

/-! ### Basic facts about the operations -/

theorem add_count (h : Heap α) (v : α) : (h.add v).count = h.count + 1 := rfl

theorem add_comparator (h : Heap α) (v : α) :
    (h.add v).comparator = h.comparator := rfl

theorem next_of_empty (h : Heap α) (hc : h.count = 0) : h.next = (none, h) := by
  simp [Heap.next, hc]

theorem next_comparator (h : Heap α) : h.next.2.comparator = h.comparator := by
  unfold Heap.next
  split
  · rfl
  · dsimp only
    split <;> rfl

theorem next_count (h : Heap α) : h.next.2.count = h.count - 1 := by
  unfold Heap.next
  split
  · simp [*]
  · dsimp only
    split <;> rfl

theorem next_fst_of_pos (h : Heap α) (hc : h.count ≠ 0) :
    h.next.1 = some (h.items.getD 1 default) := by
  unfold Heap.next
  split
  · exact absurd (by assumption) hc
  · dsimp only
    split <;> rfl

theorem next_isSome_of_pos (h : Heap α) (hc : h.count ≠ 0) :
    h.next.1.isSome = true := by
  rw [next_fst_of_pos h hc]; rfl

/-- Claim C9: a freshly constructed heap is empty (`len() = 0`,
`is_empty()`, backing sequence exactly one placeholder), and for every
heap state `is_empty()` holds iff `len() = 0`. -/
theorem c9_new_empty (cmp : α → α → Bool) :
    (Heap.new cmp).len = 0 ∧ (Heap.new cmp).is_empty = true ∧
    (Heap.new cmp).items = [default] ∧
    ∀ h : Heap α, h.is_empty = true ↔ h.len = 0 := by
  refine ⟨rfl, rfl, rfl, fun h => ?_⟩
  simp [Heap.is_empty]

/-- Claim C10: the index helpers compute `parent = i / 2`,
`left = 2 * i`, `right = 2 * i + 1`, and a child index is treated as
present exactly when it is `≤ count`. -/
theorem c10_index_helpers :
    ∀ count idx : Nat,
      parent_idx idx = idx / 2 ∧
      left_child_idx idx = 2 * idx ∧
      right_child_idx idx = 2 * idx + 1 ∧
      (children_present count idx = true ↔ left_child_idx idx ≤ count) := by
  intro count idx
  refine ⟨rfl, Nat.mul_comm idx 2, by simp [right_child_idx, left_child_idx]; omega, ?_⟩
  simp [children_present]

/-- Claim C6: the two concrete test scenarios. Min-heap: add 4, 2, 9, 11
gives `len = 4`; extraction yields 2, 4, 9; after adding 1 the next
extraction yields 1. Max-heap: the same adds give `len = 4`; extraction
yields 11, 9, 4; after adding 1 the next extraction yields 2. -/
theorem c6_test_scenarios :
    ((((((Heap.new_min (β := Int)).add 4).add 2).add 9).add 11).len = 4 ∧
      (((((Heap.new_min (β := Int)).add 4).add 2).add 9).add 11).next.1 = some 2 ∧
      (((((Heap.new_min (β := Int)).add 4).add 2).add 9).add 11).next.2.next.1 = some 4 ∧
      (((((Heap.new_min (β := Int)).add 4).add 2).add 9).add 11).next.2.next.2.next.1 = some 9 ∧
      ((((((Heap.new_min (β := Int)).add 4).add 2).add 9).add 11).next.2.next.2.next.2.add 1).next.1 = some 1) ∧
    ((((((Heap.new_max (β := Int)).add 4).add 2).add 9).add 11).len = 4 ∧
      (((((Heap.new_max (β := Int)).add 4).add 2).add 9).add 11).next.1 = some 11 ∧
      (((((Heap.new_max (β := Int)).add 4).add 2).add 9).add 11).next.2.next.1 = some 9 ∧
      (((((Heap.new_max (β := Int)).add 4).add 2).add 9).add 11).next.2.next.2.next.1 = some 4 ∧
      ((((((Heap.new_max (β := Int)).add 4).add 2).add 9).add 11).next.2.next.2.next.2.add 1).next.1 = some 2) := by
  decide

/-! ### Exhaustion and count bookkeeping -/

theorem foldl_add_count (vs : List α) :
    ∀ h : Heap α, (vs.foldl Heap.add h).count = h.count + vs.length := by
  induction vs with
  | nil => intro h; rfl
  | cons v vs ih =>
    intro h
    calc (vs.foldl Heap.add (h.add v)).count = (h.add v).count + vs.length := ih _
    _ = h.count + (v :: vs).length := by simp [add_count]; omega

theorem buildHeap_count (cmp : α → α → Bool) (vs : List α) :
    (buildHeap cmp vs).count = vs.length := by
  show (vs.foldl Heap.add (Heap.new cmp)).count = vs.length
  rw [foldl_add_count vs (Heap.new cmp)]
  simp [Heap.new]

theorem nextIter_count (h : Heap α) : ∀ k, (nextIter h k).count = h.count - k := by
  intro k
  induction k with
  | zero => rfl
  | succ k ih =>
    show ((nextIter h k).next.2).count = _
    rw [next_count, ih]
    omega

/-- Claim C3: extraction from an empty heap yields `none`; from a heap
built by `n` adds, each of the first `n` extractions yields a value, after
which `len() = 0` and the following extraction yields `none`. -/
theorem c3_exhaustion (cmp : α → α → Bool) (vs : List α) :
    (∀ h : Heap α, h.len = 0 → h.next.1 = none) ∧
    (∀ k, k < vs.length → ((nextIter (buildHeap cmp vs) k).next.1).isSome = true) ∧
    (nextIter (buildHeap cmp vs) vs.length).len = 0 ∧
    (nextIter (buildHeap cmp vs) vs.length).next.1 = none := by
  refine ⟨fun h hc => by rw [next_of_empty h hc], fun k hk => ?_, ?_, ?_⟩
  · exact next_isSome_of_pos _ (by rw [nextIter_count, buildHeap_count]; omega)
  · show (nextIter (buildHeap cmp vs) vs.length).count = 0
    rw [nextIter_count, buildHeap_count]
    omega
  · have hc : (nextIter (buildHeap cmp vs) vs.length).count = 0 := by
      rw [nextIter_count, buildHeap_count]; omega
    rw [next_of_empty _ hc]

theorem runOps_len (ops : List (Op α)) :
    ∀ h : Heap α, (runOps h ops).len + numSucc h ops = h.len + numAdds ops := by
  induction ops with
  | nil => intro h; rfl
  | cons op ops ih =>
    intro h
    cases op with
    | add v =>
      show (runOps (h.add v) ops).len + numSucc (h.add v) ops = _
      rw [ih]
      show (h.add v).count + numAdds ops = h.count + (numAdds ops + 1)
      rw [add_count]; omega
    | extract =>
      show (runOps h.next.2 ops).len + ((if h.count = 0 then 0 else 1) + numSucc h.next.2 ops) = _
      by_cases hc : h.count = 0
      · rw [next_of_empty h hc]
        simp only [hc, if_pos rfl]
        have := ih h
        show (runOps h ops).len + (0 + numSucc h ops) = h.len + numAdds ops
        omega
      · simp only [if_neg hc]
        have := ih h.next.2
        have h2 : h.next.2.len = h.len - 1 := next_count h
        show (runOps h.next.2 ops).len + (1 + numSucc h.next.2 ops) = h.len + numAdds ops
        have hpos : 1 ≤ h.len := Nat.one_le_iff_ne_zero.mpr hc
        omega

/-- Claim C4: `add` increments `len()` by exactly 1; a successful
extraction returns a value and decrements `len()` by exactly 1; an
extraction on an empty heap returns `none` and leaves `len()` unchanged;
and over any interleaving of operations from construction,
`len() + #successful extractions = #add calls`. -/
theorem c4_count_correctness (cmp : α → α → Bool) (ops : List (Op α)) :
    (∀ (h : Heap α) (v : α), (h.add v).len = h.len + 1) ∧
    (∀ h : Heap α, h.len ≠ 0 →
      h.next.1.isSome = true ∧ h.next.2.len = h.len - 1) ∧
    (∀ h : Heap α, h.len = 0 → h.next.1 = none ∧ h.next.2.len = h.len) ∧
    (runOps (Heap.new cmp) ops).len + numSucc (Heap.new cmp) ops = numAdds ops := by
  refine ⟨fun h v => add_count h v, fun h hc => ⟨next_isSome_of_pos h hc, next_count h⟩,
    fun h hc => ?_, ?_⟩
  · rw [next_of_empty h hc]
    exact ⟨rfl, rfl⟩
  · have := runOps_len ops (Heap.new cmp : Heap α)
    show (runOps (Heap.new cmp) ops).len + numSucc (Heap.new cmp) ops = numAdds ops
    have h0 : (Heap.new cmp : Heap α).len = 0 := rfl
    omega

/-- Witness for C4 at a concrete input: a singleton min-heap over `Int`. -/
theorem c4_witness :
    ((Heap.new (minCmp (β := Int))).add 3).next.1.isSome = true ∧
    ((Heap.new (minCmp (β := Int))).add 3).next.2.len =
      ((Heap.new (minCmp (β := Int))).add 3).len - 1 :=
  (c4_count_correctness (minCmp (β := Int)) []).2.1
    ((Heap.new (minCmp (β := Int))).add 3) (by decide)

/-- Witness for C3 at a concrete input: the heap built from `[3, 1]`. -/
theorem c3_witness :
    ((nextIter (buildHeap (minCmp (β := Int)) [3, 1]) 0).next.1).isSome = true ∧
    (nextIter (buildHeap (minCmp (β := Int)) [3, 1]) 2).len = 0 :=
  ⟨(c3_exhaustion (minCmp (β := Int)) [3, 1]).2.1 0 (by decide),
    (c3_exhaustion (minCmp (β := Int)) [3, 1]).2.2.1⟩

/-! ### Termination: the loop bounds are never exhausted -/

theorem bubbleUpAux_le_one (cmp : α → α → Bool) (items : List α) (idx f : Nat)
    (h : idx ≤ 1) : bubbleUpAux cmp items idx f = items := by
  cases f with
  | zero => rfl
  | succ f => simp [bubbleUpAux, show ¬1 < idx by omega]

theorem parent_idx_lt (idx : Nat) (h : 1 ≤ idx) : parent_idx idx < idx := by
  unfold parent_idx; omega

theorem bubbleUpAux_stable (cmp : α → α → Bool) :
    ∀ (idx f1 f2 : Nat) (items : List α), idx ≤ f1 → idx ≤ f2 →
      bubbleUpAux cmp items idx f1 = bubbleUpAux cmp items idx f2 := by
  intro idx
  induction idx using Nat.strong_induction_on with
  | _ idx ih =>
    intro f1 f2 items h1 h2
    by_cases hi : 1 < idx
    · obtain ⟨g1, rfl⟩ : ∃ g, f1 = g + 1 := ⟨f1 - 1, by omega⟩
      obtain ⟨g2, rfl⟩ : ∃ g, f2 = g + 1 := ⟨f2 - 1, by omega⟩
      simp only [bubbleUpAux, if_pos hi]
      split
      · rfl
      · have hp : parent_idx idx < idx := parent_idx_lt idx (by omega)
        exact ih (parent_idx idx) hp g1 g2 _ (by omega) (by omega)
    · rw [bubbleUpAux_le_one _ _ _ _ (by omega), bubbleUpAux_le_one _ _ _ _ (by omega)]

theorem bubbleDownAux_no_children (cmp : α → α → Bool) (count : Nat)
    (items : List α) (idx f : Nat) (h : count < left_child_idx idx) :
    bubbleDownAux cmp count items idx f = items := by
  cases f with
  | zero => rfl
  | succ f =>
    have hb : children_present count idx = false := by
      simp [children_present]; omega
    simp [bubbleDownAux, hb]

theorem smallest_child_idx_bounds (cmp : α → α → Bool) (count : Nat)
    (items : List α) (idx : Nat) (h1 : 1 ≤ idx) (h2 : left_child_idx idx ≤ count) :
    idx < smallest_child_idx cmp count items idx ∧
    smallest_child_idx cmp count items idx ≤ count ∧
    parent_idx (smallest_child_idx cmp count items idx) = idx := by
  simp only [smallest_child_idx, parent_idx, right_child_idx, left_child_idx] at *
  split_ifs <;> refine ⟨by omega, by omega, by omega⟩

theorem bubbleDownAux_stable (cmp : α → α → Bool) (count : Nat) :
    ∀ (m idx f1 f2 : Nat) (items : List α), 1 ≤ idx →
      count + 1 - idx ≤ m → count + 1 - idx ≤ f1 → count + 1 - idx ≤ f2 →
      bubbleDownAux cmp count items idx f1 = bubbleDownAux cmp count items idx f2 := by
  intro m
  induction m with
  | zero =>
    intro idx f1 f2 items hi hm _ _
    have hc : count < left_child_idx idx := by
      unfold left_child_idx; omega
    rw [bubbleDownAux_no_children _ _ _ _ _ hc, bubbleDownAux_no_children _ _ _ _ _ hc]
  | succ m ih =>
    intro idx f1 f2 items hi hm h1 h2
    by_cases hc : left_child_idx idx ≤ count
    · have hpos : 1 ≤ count + 1 - idx := by
        unfold left_child_idx at hc; omega
      obtain ⟨g1, rfl⟩ : ∃ g, f1 = g + 1 := ⟨f1 - 1, by omega⟩
      obtain ⟨g2, rfl⟩ : ∃ g, f2 = g + 1 := ⟨f2 - 1, by omega⟩
      have hb : children_present count idx = true := by
        simp [children_present]; exact hc
      obtain ⟨hlt, hle, hpar⟩ := smallest_child_idx_bounds cmp count items idx hi hc
      simp only [bubbleDownAux, hb, if_pos]
      split
      · rfl
      · exact ih _ g1 g2 _ (by omega) (by omega) (by omega) (by omega)
    · have hcc : count < left_child_idx idx := by omega
      rw [bubbleDownAux_no_children _ _ _ _ _ hcc, bubbleDownAux_no_children _ _ _ _ _ hcc]

/-- Claim C7: both rebalancing loops always reach their exit condition:
any iteration bound of at least `idx` (bubble-up) or of at least
`count + 1 - idx` (bubble-down, entry index at least 1) yields the same
result as the bound the heap operations use, i.e. the loops stop by
reaching the root / the restored invariant, never by running out of the
bound. -/
theorem c7_termination (cmp : α → α → Bool) (count : Nat) :
    (∀ (items : List α) (idx fuel : Nat), idx ≤ fuel →
      bubbleUpAux cmp items idx fuel = bubbleUp cmp items idx) ∧
    (∀ (items : List α) (idx fuel : Nat), 1 ≤ idx → count + 1 - idx ≤ fuel →
      bubbleDownAux cmp count items idx fuel = bubbleDown cmp count items idx) := by
  constructor
  · intro items idx fuel hf
    exact bubbleUpAux_stable cmp idx fuel idx items hf le_rfl
  · intro items idx fuel h1 h2
    unfold bubbleDown
    exact bubbleDownAux_stable cmp count (count + 1 - idx) idx fuel (count + 1)
      items h1 le_rfl h2 (by omega)

/-- Witness for C7 at concrete inputs. -/
theorem c7_witness :
    bubbleUpAux (minCmp (β := Int)) [0, 2, 1] 2 5 = bubbleUp (minCmp (β := Int)) [0, 2, 1] 2 ∧
    bubbleDownAux (minCmp (β := Int)) 2 [0, 2, 1] 1 9 = bubbleDown (minCmp (β := Int)) 2 [0, 2, 1] 1 :=
  ⟨(c7_termination (minCmp (β := Int)) 2).1 [0, 2, 1] 2 5 (by decide),
   (c7_termination (minCmp (β := Int)) 2).2 [0, 2, 1] 1 9 (by decide) (by decide)⟩

/-! ### Bounds: the backing sequence always exceeds `count` -/

theorem swapL_length (l : List α) (i j : Nat) : (swapL l i j).length = l.length := by
  simp [swapL]

theorem bubbleUpAux_length (cmp : α → α → Bool) :
    ∀ (fuel : Nat) (items : List α) (idx : Nat),
      (bubbleUpAux cmp items idx fuel).length = items.length := by
  intro fuel
  induction fuel with
  | zero => intro items idx; rfl
  | succ fuel ih =>
    intro items idx
    unfold bubbleUpAux
    split
    · split
      · rfl
      · rw [ih, swapL_length]
    · rfl

theorem bubbleUp_length (cmp : α → α → Bool) (items : List α) (idx : Nat) :
    (bubbleUp cmp items idx).length = items.length :=
  bubbleUpAux_length cmp idx items idx

theorem bubbleDownAux_length (cmp : α → α → Bool) (count : Nat) :
    ∀ (fuel : Nat) (items : List α) (idx : Nat),
      (bubbleDownAux cmp count items idx fuel).length = items.length := by
  intro fuel
  induction fuel with
  | zero => intro items idx; rfl
  | succ fuel ih =>
    intro items idx
    unfold bubbleDownAux
    split
    · dsimp only
      split
      · rfl
      · rw [ih, swapL_length]
    · rfl

theorem bubbleDown_length (cmp : α → α → Bool) (count : Nat) (items : List α)
    (idx : Nat) : (bubbleDown cmp count items idx).length = items.length :=
  bubbleDownAux_length cmp count (count + 1) items idx

theorem add_bound (h : Heap α) (v : α) (hb : h.count < h.items.length) :
    (h.add v).count < (h.add v).items.length := by
  unfold Heap.add
  dsimp only
  rw [bubbleUp_length]
  split
  · simp
    omega
  · simp
    omega

theorem next_bound (h : Heap α) (hb : h.count < h.items.length) :
    h.next.2.count < h.next.2.items.length := by
  unfold Heap.next
  split
  · exact hb
  · dsimp only
    split
    · simp only [List.length_set]
      omega
    · dsimp only
      rw [bubbleDown_length]
      simp only [List.length_set]
      omega

theorem reachable_bound {h : Heap α} (hr : Reachable h) :
    h.count < h.items.length := by
  induction hr with
  | new cmp => simp [Heap.new]
  | add v hr ih => exact add_bound _ _ ih
  | next hr ih => exact next_bound _ ih

/-- Claim C8: every reachable heap state satisfies
`items.length ≥ count + 1`, so every index in `0..=count` — in particular
every index the operations access — is within the backing sequence. -/
theorem c8_in_bounds {h : Heap α} (hr : Reachable h) :
    h.count + 1 ≤ h.items.length ∧ ∀ i, i ≤ h.count → i < h.items.length := by
  have hb := reachable_bound hr
  exact ⟨hb, fun i hi => by omega⟩

/-- Witness for C8 at a concrete reachable state. -/
theorem c8_witness :
    (((Heap.new (minCmp (β := Int))).add 3).next.2).count + 1 ≤
      (((Heap.new (minCmp (β := Int))).add 3).next.2).items.length :=
  (c8_in_bounds (Reachable.next (Reachable.add 3 (Reachable.new (minCmp (β := Int)))))).1

/-! ### Reading and writing slots -/

theorem getD_set_of_ne (l : List α) (i j : Nat) (v d : α) (hij : i ≠ j) :
    (l.set i v).getD j d = l.getD j d := by
  rw [List.getD_eq_getElem?_getD, List.getD_eq_getElem?_getD, List.getElem?_set_ne hij]

theorem getD_set_self (l : List α) (i : Nat) (v d : α) (hi : i < l.length) :
    (l.set i v).getD i d = v := by
  rw [List.getD_eq_getElem?_getD, List.getElem?_set]
  simp [hi]

theorem getD_irrel (l : List α) (i : Nat) (d1 d2 : α) (hi : i < l.length) :
    l.getD i d1 = l.getD i d2 := by
  rw [List.getD_eq_getElem?_getD, List.getD_eq_getElem?_getD,
    List.getElem?_eq_getElem hi]
  rfl

theorem swapL_getD_fst (l : List α) (i j : Nat) (d : α) (hi : i < l.length)
    (hj : j < l.length) : (swapL l i j).getD i d = l.getD j d := by
  unfold swapL
  by_cases hij : i = j
  · subst hij
    rw [getD_set_self _ _ _ _ (by simpa using hi)]
    exact getD_irrel l i default d hi
  · rw [getD_set_of_ne _ _ _ _ _ (Ne.symm hij), getD_set_self _ _ _ _ hi]
    exact getD_irrel l j default d hj

theorem swapL_getD_snd (l : List α) (i j : Nat) (d : α) (hi : i < l.length)
    (hj : j < l.length) : (swapL l i j).getD j d = l.getD i d := by
  unfold swapL
  rw [getD_set_self _ _ _ _ (by simpa using hj)]
  exact getD_irrel l i default d hi

theorem swapL_getD_other (l : List α) (i j k : Nat) (d : α) (hki : k ≠ i)
    (hkj : k ≠ j) : (swapL l i j).getD k d = l.getD k d := by
  unfold swapL
  rw [getD_set_of_ne _ _ _ _ _ (Ne.symm hkj), getD_set_of_ne _ _ _ _ _ (Ne.symm hki)]

/-! ### Multiset preservation of slot writes and swaps -/

theorem multiset_set (l : List α) (i : Nat) (v d : α) (hi : i < l.length) :
    (↑(l.set i v) : Multiset α) + {l.getD i d} = ↑l + {v} := by
  induction l generalizing i with
  | nil => simp at hi
  | cons x xs ih =>
    cases i with
    | zero =>
      show (↑(v :: xs) : Multiset α) + {x} = ↑(x :: xs) + {v}
      simp only [← Multiset.cons_coe]
      rw [add_comm, add_comm (x ::ₘ (xs : Multiset α)), Multiset.singleton_add,
        Multiset.singleton_add]
      exact Multiset.cons_swap x v ↑xs
    | succ i =>
      show (↑(x :: xs.set i v) : Multiset α) + {xs.getD i d} = ↑(x :: xs) + {v}
      simp only [← Multiset.cons_coe, Multiset.cons_add]
      rw [ih i (by simpa using hi)]

theorem multiset_swapL (l : List α) (i j : Nat) (hi : i < l.length)
    (hj : j < l.length) : (↑(swapL l i j) : Multiset α) = ↑l := by
  have h1 := multiset_set l i (l.getD j default) default hi
  have h2 := multiset_set (l.set i (l.getD j default)) j (l.getD i default) default
    (by simpa using hj)
  have h3 : (l.set i (l.getD j default)).getD j default = l.getD j default := by
    by_cases hij : i = j
    · subst hij; exact getD_set_self _ _ _ _ hi
    · exact getD_set_of_ne _ _ _ _ _ hij
  rw [h3] at h2
  have h4 : (↑(swapL l i j) : Multiset α) + {l.getD j default} =
      ↑l + {l.getD j default} := h2.trans h1
  exact add_right_cancel h4

/-! ### The live region -/

theorem liveL_length (count : Nat) (items : List α) (h : count < items.length) :
    (liveL count items).length = count := by
  simp [liveL]; omega

theorem liveL_getElem?_lt (count : Nat) (items : List α) (k : Nat) (hk : k < count) :
    (liveL count items)[k]? = items[k + 1]? := by
  rw [liveL, List.getElem?_take, if_pos hk, List.getElem?_drop]
  congr 1
  omega

theorem liveL_getElem?_ge (count : Nat) (items : List α) (k : Nat) (hk : count ≤ k) :
    (liveL count items)[k]? = none := by
  rw [liveL, List.getElem?_take, if_neg (by omega)]

theorem liveL_getD (count : Nat) (items : List α) (k : Nat) (d : α) (hk : k < count) :
    (liveL count items).getD k d = items.getD (k + 1) d := by
  rw [List.getD_eq_getElem?_getD, List.getD_eq_getElem?_getD, liveL_getElem?_lt _ _ _ hk]

theorem liveL_set (count : Nat) (items : List α) (i : Nat) (v : α)
    (h1 : 1 ≤ i) (hi : i ≤ count) (hc : count < items.length) :
    liveL count (items.set i v) = (liveL count items).set (i - 1) v := by
  apply List.ext_getElem?
  intro n
  by_cases hn : n < count
  · rw [liveL_getElem?_lt _ _ _ hn, List.getElem?_set, List.getElem?_set]
    by_cases hin : i = n + 1
    · rw [if_pos (by omega), if_pos (by omega : i - 1 = n), if_pos (by omega),
        if_pos (by rw [liveL_length _ _ hc]; omega)]
    · rw [if_neg hin, if_neg (by omega : ¬ i - 1 = n), liveL_getElem?_lt _ _ _ hn]
  · rw [liveL_getElem?_ge _ _ _ (by omega), List.getElem?_set,
      if_neg (by omega : ¬ i - 1 = n), liveL_getElem?_ge _ _ _ (by omega)]

theorem liveL_set_outside (count : Nat) (items : List α) (i : Nat) (v : α)
    (hi : count < i) : liveL count (items.set i v) = liveL count items := by
  apply List.ext_getElem?
  intro n
  by_cases hn : n < count
  · rw [liveL_getElem?_lt _ _ _ hn, liveL_getElem?_lt _ _ _ hn,
      List.getElem?_set_ne (by omega)]
  · rw [liveL_getElem?_ge _ _ _ (by omega), liveL_getElem?_ge _ _ _ (by omega)]

theorem liveL_swapL (count : Nat) (items : List α) (i j : Nat)
    (h1i : 1 ≤ i) (hic : i ≤ count) (h1j : 1 ≤ j) (hjc : j ≤ count)
    (hc : count < items.length) :
    liveL count (swapL items i j) = swapL (liveL count items) (i - 1) (j - 1) := by
  unfold swapL
  rw [liveL_set _ _ _ _ h1j hjc (by simpa using hc),
    liveL_set _ _ _ _ h1i hic hc]
  rw [show items.getD j default = (liveL count items).getD (j - 1) default by
      rw [liveL_getD _ _ _ _ (by omega)]; congr 1; omega,
    show items.getD i default = (liveL count items).getD (i - 1) default by
      rw [liveL_getD _ _ _ _ (by omega)]; congr 1; omega]

theorem multiset_liveL_swapL (count : Nat) (items : List α) (i j : Nat)
    (h1i : 1 ≤ i) (hic : i ≤ count) (h1j : 1 ≤ j) (hjc : j ≤ count)
    (hc : count < items.length) :
    (↑(liveL count (swapL items i j)) : Multiset α) = ↑(liveL count items) := by
  rw [liveL_swapL _ _ _ _ h1i hic h1j hjc hc]
  exact multiset_swapL _ _ _ (by rw [liveL_length _ _ hc]; omega)
    (by rw [liveL_length _ _ hc]; omega)

/-! ### The operations permute the live elements -/

theorem bubbleUpAux_live (cmp : α → α → Bool) (count : Nat) :
    ∀ (fuel : Nat) (items : List α) (idx : Nat), 1 ≤ idx → idx ≤ count →
      count < items.length →
      (↑(liveL count (bubbleUpAux cmp items idx fuel)) : Multiset α) =
        ↑(liveL count items) := by
  intro fuel
  induction fuel with
  | zero => intro items idx _ _ _; rfl
  | succ fuel ih =>
    intro items idx h1 h2 h3
    unfold bubbleUpAux
    split
    · split
      · rfl
      · have hp : parent_idx idx < idx := parent_idx_lt idx (by omega)
        have hp1 : 1 ≤ parent_idx idx := by unfold parent_idx at *; omega
        rw [ih _ _ hp1 (by omega) (by rw [swapL_length]; exact h3)]
        exact multiset_liveL_swapL count items _ _ hp1 (by omega) h1 h2 h3
    · rfl

theorem bubbleDownAux_live (cmp : α → α → Bool) (count : Nat) :
    ∀ (fuel : Nat) (items : List α) (idx : Nat), 1 ≤ idx →
      count < items.length →
      (↑(liveL count (bubbleDownAux cmp count items idx fuel)) : Multiset α) =
        ↑(liveL count items) := by
  intro fuel
  induction fuel with
  | zero => intro items idx _ _; rfl
  | succ fuel ih =>
    intro items idx h1 h3
    unfold bubbleDownAux
    split
    · dsimp only
      split
      · rfl
      · rename_i hcp _
        have hc : left_child_idx idx ≤ count := by
          simpa [children_present] using hcp
        obtain ⟨hlt, hle, _⟩ := smallest_child_idx_bounds cmp count items idx h1 hc
        have hidx : idx ≤ count := le_trans (by unfold left_child_idx; omega) hc
        rw [ih _ _ (by omega) (by rw [swapL_length]; exact h3)]
        exact multiset_liveL_swapL count items _ _ h1 hidx (by omega) hle h3
    · rfl

theorem liveL_succ (count : Nat) (items : List α) (hc : count + 1 < items.length) :
    liveL (count + 1) items = liveL count items ++ [items.getD (count + 1) default] := by
  unfold liveL
  rw [List.take_succ, List.getElem?_drop,
    show items[1 + count]? = some (items.getD (count + 1) default) by
      rw [List.getD_eq_getElem?_getD, show 1 + count = count + 1 by omega,
        List.getElem?_eq_getElem (by omega)]
      rfl]
  rfl

theorem add_live (h : Heap α) (v : α) (hb : h.count < h.items.length) :
    (↑(h.add v).live : Multiset α) = ↑h.live + {v} := by
  show (↑(liveL (h.count + 1) (bubbleUp h.comparator _ (h.count + 1))) : Multiset α) = _
  have hlen : h.count + 1 <
      (if h.items.length ≤ h.count + 1 then h.items ++ [v]
       else h.items.set (h.count + 1) v).length := by
    split
    · simp; omega
    · simp; omega
  rw [show bubbleUp h.comparator
        (if h.items.length ≤ h.count + 1 then h.items ++ [v]
         else h.items.set (h.count + 1) v) (h.count + 1) =
      bubbleUpAux h.comparator
        (if h.items.length ≤ h.count + 1 then h.items ++ [v]
         else h.items.set (h.count + 1) v) (h.count + 1) (h.count + 1) from rfl]
  rw [bubbleUpAux_live h.comparator (h.count + 1) (h.count + 1) _ (h.count + 1)
    (by omega) le_rfl hlen]
  have hplace : liveL (h.count + 1)
      (if h.items.length ≤ h.count + 1 then h.items ++ [v]
       else h.items.set (h.count + 1) v) = liveL h.count h.items ++ [v] := by
    split
    · rename_i hpush
      have hlen1 : h.items.length = h.count + 1 := by omega
      unfold liveL
      rw [List.drop_append_of_le_length (by omega)]
      rw [List.take_of_length_le (by simp; omega)]
      rw [List.take_of_length_le (by simp; omega)]
    · rename_i hset
      have hlt : h.count + 1 < h.items.length := by omega
      rw [liveL_set (h.count + 1) h.items (h.count + 1) v (by omega) le_rfl hlt]
      rw [liveL_succ h.count h.items hlt]
      rw [show h.count + 1 - 1 = h.count from rfl]
      rw [List.set_append_right _ _ (by rw [liveL_length _ _ hb])]
      rw [liveL_length _ _ hb, Nat.sub_self]
      rfl
  rw [hplace]
  show (↑(h.live ++ [v]) : Multiset α) = _
  rw [← Multiset.coe_add, Multiset.coe_singleton]

theorem next_snd_one (h : Heap α) (hc : h.count = 1) :
    h.next.2.items = ((h.items.set 1 default).set h.count default).set 1
      ((h.items.set 1 default).getD h.count default) ∧ h.next.2.count = 0 := by
  unfold Heap.next
  rw [if_neg (by omega)]
  dsimp only
  rw [if_pos (by omega)]
  exact ⟨rfl, by show h.count - 1 = 0; omega⟩

theorem next_snd_many (h : Heap α) (hc : 2 ≤ h.count) :
    h.next.2.items = bubbleDown h.comparator (h.count - 1)
      (((h.items.set 1 default).set h.count default).set 1
        ((h.items.set 1 default).getD h.count default)) 1 ∧
    h.next.2.count = h.count - 1 := by
  unfold Heap.next
  rw [if_neg (by omega)]
  dsimp only
  rw [if_neg (by omega)]
  exact ⟨rfl, rfl⟩

theorem next_live (h : Heap α) (hc : h.count ≠ 0) (hb : h.count < h.items.length) :
    (↑h.live : Multiset α) = {h.items.getD 1 default} + ↑h.next.2.live := by
  obtain ⟨n, hn⟩ : ∃ n, h.count = n + 1 := ⟨h.count - 1, by omega⟩
  have hroot : h.live = liveL n h.items ++ [h.items.getD (n + 1) default] := by
    show liveL h.count h.items = _
    rw [hn]
    exact liveL_succ n h.items (by omega)
  have hlast : (h.items.set 1 default).getD h.count default =
      (if n = 0 then (default : α) else h.items.getD (n + 1) default) := by
    split
    · rename_i h0
      rw [hn, h0, getD_set_self _ _ _ _ (by omega)]
    · rename_i h0
      rw [hn, getD_set_of_ne _ _ _ _ _ (by omega)]
  by_cases h1 : h.count = 1
  · obtain ⟨hi2, hc2⟩ := next_snd_one h h1
    have hnil : h.next.2.live = [] := by
      show liveL h.next.2.count h.next.2.items = []
      rw [hc2]
      rfl
    have hn0 : n = 0 := by omega
    rw [hroot, hnil, hn0]
    rw [show liveL 0 h.items = [] from rfl]
    simp
  · have h2 : 2 ≤ h.count := by omega
    obtain ⟨hi2, hc2⟩ := next_snd_many h h2
    have hn1 : 1 ≤ n := by omega
    have hlast2 : (h.items.set 1 default).getD h.count default =
        h.items.getD (n + 1) default := by
      rw [hlast, if_neg (by omega)]
    have hlive2 : (↑h.next.2.live : Multiset α) =
        ↑(liveL n (((h.items.set 1 default).set h.count default).set 1
          (h.items.getD (n + 1) default))) := by
      show (↑(liveL h.next.2.count h.next.2.items) : Multiset α) = _
      rw [hc2, hi2, hlast2, hn]
      simp only [Nat.add_sub_cancel]
      exact bubbleDownAux_live h.comparator n (n + 1) _ 1 le_rfl
        (by simp only [List.length_set]; omega)
    have hyv : liveL n (((h.items.set 1 default).set h.count default).set 1
        (h.items.getD (n + 1) default)) =
        (liveL n h.items).set 0 (h.items.getD (n + 1) default) := by
      rw [liveL_set _ _ _ _ le_rfl hn1 (by simp only [List.length_set]; omega)]
      rw [hn]
      rw [liveL_set_outside _ _ _ _ (by omega)]
      rw [liveL_set _ _ _ _ le_rfl hn1 (by omega)]
      rw [show (1 : Nat) - 1 = 0 from rfl, List.set_set]
    have hms := multiset_set (liveL n h.items) 0 (h.items.getD (n + 1) default) default
      (by rw [liveL_length _ _ (by omega)]; omega)
    rw [show (liveL n h.items).getD 0 default = h.items.getD 1 default by
      rw [liveL_getD _ _ _ _ (by omega)]] at hms
    rw [hroot, hlive2, hyv]
    rw [show (↑(liveL n h.items ++ [h.items.getD (n + 1) default]) : Multiset α) =
        ↑(liveL n h.items) + {h.items.getD (n + 1) default} by
      rw [← Multiset.coe_add, Multiset.coe_singleton]]
    rw [← hms]
    exact add_comm _ _

theorem foldl_add_live (vs : List α) :
    ∀ h : Heap α, h.count < h.items.length →
      (↑(vs.foldl Heap.add h).live : Multiset α) = ↑h.live + ↑vs := by
  induction vs with
  | nil => intro h _; simp
  | cons v vs ih =>
    intro h hb
    show (↑(vs.foldl Heap.add (h.add v)).live : Multiset α) = _
    rw [ih _ (add_bound h v hb), add_live h v hb]
    rw [show (↑(v :: vs) : Multiset α) = {v} + ↑vs by
      rw [Multiset.singleton_add, Multiset.cons_coe]]
    rw [add_assoc]

theorem buildHeap_live (cmp : α → α → Bool) (vs : List α) :
    (↑(buildHeap cmp vs).live : Multiset α) = ↑vs := by
  show (↑(vs.foldl Heap.add (Heap.new cmp)).live : Multiset α) = ↑vs
  rw [foldl_add_live vs (Heap.new cmp) (by simp [Heap.new])]
  rfl

theorem drain_live : ∀ (n : Nat) (h : Heap α), h.count = n →
    h.count < h.items.length →
    (↑(drain h n) : Multiset α) = ↑h.live := by
  intro n
  induction n with
  | zero =>
    intro h hn _
    show (0 : Multiset α) = ↑(liveL h.count h.items)
    rw [hn]
    rfl
  | succ n ih =>
    intro h hn hb
    have hfst := next_fst_of_pos h (by omega)
    show (↑(drain h (n + 1)) : Multiset α) = _
    unfold drain
    rw [show h.next = (some (h.items.getD 1 default), h.next.2) from
      Prod.ext hfst rfl]
    show (↑(h.items.getD 1 default :: drain h.next.2 n) : Multiset α) = ↑h.live
    rw [← Multiset.cons_coe, ← Multiset.singleton_add]
    rw [ih h.next.2 (by rw [next_count]; omega) (next_bound h hb)]
    exact (next_live h (by omega) hb).symm

/-- Claim C5: draining a heap built from any list of added values returns
exactly the multiset of those values — no value is lost, duplicated, or
invented. -/
theorem buildHeap_reachable (cmp : α → α → Bool) (vs : List α) :
    Reachable (buildHeap cmp vs) := by
  show Reachable (vs.foldl Heap.add (Heap.new cmp))
  have : ∀ (ws : List α) (h : Heap α), Reachable h → Reachable (ws.foldl Heap.add h) := by
    intro ws
    induction ws with
    | nil => intro h hr; exact hr
    | cons w ws ihw => intro h hr; exact ihw _ (Reachable.add w hr)
  exact this vs _ (Reachable.new cmp)

theorem c5_multiset_preservation (cmp : α → α → Bool) (vs : List α) :
    (↑(drain (buildHeap cmp vs) (buildHeap cmp vs).len) : Multiset α) = ↑vs := by
  have hb : (buildHeap cmp vs).count < (buildHeap cmp vs).items.length :=
    reachable_bound (buildHeap_reachable cmp vs)
  rw [show (buildHeap cmp vs).len = (buildHeap cmp vs).count from rfl]
  rw [drain_live (buildHeap cmp vs).count _ rfl hb]
  exact buildHeap_live cmp vs

/-! ### The heap property -/

theorem strictCmp_minCmp {β : Type} [LinearOrder β] : StrictCmp (minCmp (β := β)) := by
  constructor
  · intro a b hab
    exact decide_eq_false (lt_asymm (of_decide_eq_true hab))
  · intro a b c hab hbc
    exact decide_eq_true (lt_trans (of_decide_eq_true hab) (of_decide_eq_true hbc))
  · intro a b c hab hbc
    have h1 : b ≤ a := not_lt.mp (of_decide_eq_false hab)
    have h2 : c ≤ b := not_lt.mp (of_decide_eq_false hbc)
    exact decide_eq_false (not_lt.mpr (le_trans h2 h1))

theorem strictCmp_maxCmp {β : Type} [LinearOrder β] : StrictCmp (maxCmp (β := β)) := by
  constructor
  · intro a b hab
    exact decide_eq_false (lt_asymm (of_decide_eq_true hab))
  · intro a b c hab hbc
    exact decide_eq_true (lt_trans (of_decide_eq_true hbc) (of_decide_eq_true hab))
  · intro a b c hab hbc
    have h1 : a ≤ b := not_lt.mp (of_decide_eq_false hab)
    have h2 : b ≤ c := not_lt.mp (of_decide_eq_false hbc)
    exact decide_eq_false (not_lt.mpr (le_trans h1 h2))

theorem parent_idx_interval (i j : Nat) : parent_idx i = j ↔ (j * 2 ≤ i ∧ i < j * 2 + 2) := by
  unfold parent_idx; omega

theorem bubbleUpAux_inv (cmp : α → α → Bool) (hs : StrictCmp cmp) (count : Nat) :
    ∀ (fuel : Nat) (items : List α) (j : Nat), 1 ≤ j → j ≤ count →
      count < items.length → j ≤ fuel → upInv cmp count items j →
      heapInv cmp count (bubbleUpAux cmp items j fuel) := by
  intro fuel
  induction fuel with
  | zero =>
    intro items j h1 _ _ hf _
    omega
  | succ fuel ih =>
    intro items j h1 hjc hlen hf hup
    unfold bubbleUpAux
    by_cases hj : 1 < j
    · rw [if_pos hj]
      have hplt : parent_idx j < j := parent_idx_lt j (by omega)
      have hp1 : 1 ≤ parent_idx j := by unfold parent_idx at *; omega
      by_cases hcmp : cmp (items.getD (parent_idx j) default) (items.getD j default) = true
      · rw [if_pos hcmp]
        intro i hi1 hic
        by_cases hij : i = j
        · subst hij
          exact hs.asymm _ _ hcmp
        · exact hup.1 i hi1 hic hij
      · rw [if_neg hcmp]
        rw [Bool.not_eq_true] at hcmp
        apply ih _ (parent_idx j) hp1 (by omega) (by rw [swapL_length]; exact hlen) (by omega)
        have hjlen : j < items.length := by omega
        have hplen : parent_idx j < items.length := by omega
        have hbp : (swapL items (parent_idx j) j).getD (parent_idx j) default =
            items.getD j default := swapL_getD_fst items _ _ _ hplen hjlen
        have hbj : (swapL items (parent_idx j) j).getD j default =
            items.getD (parent_idx j) default := swapL_getD_snd items _ _ _ hplen hjlen
        have hbo : ∀ k, k ≠ parent_idx j → k ≠ j →
            (swapL items (parent_idx j) j).getD k default = items.getD k default :=
          fun k hk1 hk2 => swapL_getD_other items _ _ k _ hk1 hk2
        constructor
        · intro i hi1 hic hip
          by_cases hij : i = j
          · subst hij
            rw [hbj, hbp]
            exact hcmp
          · by_cases hpij : parent_idx i = j
            · have hgt : j * 2 ≤ i := ((parent_idx_interval i j).mp hpij).1
              rw [hbo i (by omega) hij, hpij, hbj]
              exact hup.2 hj i hi1 hic hpij
            · by_cases hpip : parent_idx i = parent_idx j
              · have hgt : (parent_idx j) * 2 ≤ i :=
                  ((parent_idx_interval i (parent_idx j)).mp hpip).1
                rw [hbo i hip hij, hpip, hbp]
                exact hs.negtrans _ _ _
                  (by rw [← hpip]; exact hup.1 i hi1 hic hij) hcmp
              · rw [hbo i hip hij, hbo (parent_idx i) hpip hpij]
                exact hup.1 i hi1 hic hij
        · intro hp2 i hi1 hic hpi
          have hqlt : parent_idx (parent_idx j) < parent_idx j :=
            parent_idx_lt _ (by omega)
          have hi2p : (parent_idx j) * 2 ≤ i := ((parent_idx_interval i _).mp hpi).1
          rw [hbo (parent_idx (parent_idx j)) (by omega) (by omega)]
          by_cases hij : i = j
          · subst hij
            rw [hbj]
            exact hup.1 _ hp2 (by omega) (by omega)
          · rw [hbo i (by omega) hij]
            exact hs.negtrans _ _ _
              (by rw [← hpi]; exact hup.1 i hi1 hic hij)
              (hup.1 _ hp2 (by omega) (by omega))
    · rw [if_neg hj]
      intro i hi1 hic
      exact hup.1 i hi1 hic (by omega)

theorem getD_append_left (l l2 : List α) (k : Nat) (d : α) (hk : k < l.length) :
    (l ++ l2).getD k d = l.getD k d := by
  rw [List.getD_eq_getElem?_getD, List.getD_eq_getElem?_getD, List.getElem?_append,
    if_pos hk]

theorem add_heapInv (h : Heap α) (v : α) (hs : StrictCmp h.comparator)
    (hb : h.count < h.items.length)
    (hinv : heapInv h.comparator h.count h.items) :
    heapInv h.comparator (h.add v).count (h.add v).items := by
  show heapInv h.comparator (h.count + 1)
    (bubbleUpAux h.comparator
      (if h.items.length ≤ h.count + 1 then h.items ++ [v]
       else h.items.set (h.count + 1) v) (h.count + 1) (h.count + 1))
  have hlen : h.count + 1 <
      (if h.items.length ≤ h.count + 1 then h.items ++ [v]
       else h.items.set (h.count + 1) v).length := by
    split
    · simp; omega
    · simp; omega
  have hXgetD : ∀ k, k ≤ h.count →
      (if h.items.length ≤ h.count + 1 then h.items ++ [v]
       else h.items.set (h.count + 1) v).getD k default = h.items.getD k default := by
    intro k hk
    split
    · exact getD_append_left _ _ _ _ (by omega)
    · exact getD_set_of_ne _ _ _ _ _ (by omega)
  apply bubbleUpAux_inv h.comparator hs (h.count + 1) (h.count + 1) _ (h.count + 1)
    (by omega) le_rfl hlen le_rfl
  constructor
  · intro i hi1 hic hij
    have hip : parent_idx i < i := parent_idx_lt i (by omega)
    rw [hXgetD i (by omega), hXgetD (parent_idx i) (by omega)]
    exact hinv i hi1 (by omega)
  · intro _ i hi1 hic hpi
    have : (h.count + 1) * 2 ≤ i := ((parent_idx_interval i _).mp hpi).1
    omega

theorem smallest_child_pref (cmp : α → α → Bool) (hs : StrictCmp cmp) (count : Nat)
    (items : List α) (j : Nat) (h1 : 1 ≤ j) (h2 : left_child_idx j ≤ count) :
    (∀ o, parent_idx o = j → o ≤ count → o ≠ smallest_child_idx cmp count items j →
      cmp (items.getD o default)
        (items.getD (smallest_child_idx cmp count items j) default) = false) ∧
    (cmp (items.getD j default)
        (items.getD (smallest_child_idx cmp count items j) default) = true →
      ∀ o, parent_idx o = j → o ≤ count →
        cmp (items.getD o default) (items.getD j default) = false) := by
  have h2' : j * 2 ≤ count := h2
  have hchild : ∀ o, parent_idx o = j → (o = j * 2 ∨ o = j * 2 + 1) := by
    intro o ho
    have := (parent_idx_interval o j).mp ho
    omega
  have hc : smallest_child_idx cmp count items j =
      (if count < j * 2 + 1 then j * 2
       else if cmp (items.getD (j * 2) default) (items.getD (j * 2 + 1) default)
       then j * 2 else j * 2 + 1) := by
    simp only [smallest_child_idx, left_child_idx, right_child_idx]
    rw [if_neg (by omega)]
  rw [hc]
  by_cases hone : count < j * 2 + 1
  · rw [if_pos hone]
    constructor
    · intro o ho hoc hne
      rcases hchild o ho with h | h <;> omega
    · intro hbreak o ho hoc
      rcases hchild o ho with h | h
      · subst h
        exact hs.asymm _ _ hbreak
      · omega
  · rw [if_neg hone]
    by_cases hlr : cmp (items.getD (j * 2) default) (items.getD (j * 2 + 1) default) = true
    · rw [if_pos hlr]
      constructor
      · intro o ho hoc hne
        rcases hchild o ho with h | h
        · omega
        · subst h
          exact hs.asymm _ _ hlr
      · intro hbreak o ho hoc
        rcases hchild o ho with h | h
        · subst h
          exact hs.asymm _ _ hbreak
        · subst h
          exact hs.asymm _ _ (hs.trans _ _ _ hbreak hlr)
    · rw [if_neg hlr]
      rw [Bool.not_eq_true] at hlr
      constructor
      · intro o ho hoc hne
        rcases hchild o ho with h | h
        · subst h
          exact hlr
        · omega
      · intro hbreak o ho hoc
        rcases hchild o ho with h | h
        · subst h
          by_cases hx : cmp (items.getD (j * 2) default) (items.getD j default) = true
          · exact absurd (hs.trans _ _ _ hx hbreak)
              (by rw [hlr]; exact Bool.false_ne_true)
          · rwa [Bool.not_eq_true] at hx
        · subst h
          exact hs.asymm _ _ hbreak

theorem bubbleDownAux_inv (cmp : α → α → Bool) (hs : StrictCmp cmp) (count : Nat) :
    ∀ (fuel : Nat) (items : List α) (j : Nat), 1 ≤ j → count < items.length →
      count + 1 - j ≤ fuel → downInv cmp count items j →
      heapInv cmp count (bubbleDownAux cmp count items j fuel) := by
  intro fuel
  induction fuel with
  | zero =>
    intro items j h1 hlen hf hdown
    show heapInv cmp count items
    intro i hi1 hic
    have hpi : parent_idx i ≠ j := by
      intro he
      have := (parent_idx_interval i j).mp he
      omega
    exact hdown.1 i hi1 hic hpi
  | succ fuel ih =>
    intro items j h1 hlen hf hdown
    unfold bubbleDownAux
    by_cases hcp : children_present count j = true
    · rw [if_pos hcp]
      dsimp only
      have hc2 : left_child_idx j ≤ count := by simpa [children_present] using hcp
      obtain ⟨hlt, hle, hpar⟩ := smallest_child_idx_bounds cmp count items j h1 hc2
      obtain ⟨hpref, hbreak⟩ := smallest_child_pref cmp hs count items j h1 hc2
      by_cases hcmp : cmp (items.getD j default)
          (items.getD (smallest_child_idx cmp count items j) default) = true
      · rw [if_pos hcmp]
        intro i hi1 hic
        by_cases hpij : parent_idx i = j
        · rw [hpij]
          exact hbreak hcmp i hpij hic
        · exact hdown.1 i hi1 hic hpij
      · rw [if_neg hcmp]
        rw [Bool.not_eq_true] at hcmp
        set c := smallest_child_idx cmp count items j with hcdef
        have hjlen : j < items.length := by omega
        have hclen : c < items.length := by omega
        have hbj : (swapL items j c).getD j default = items.getD c default :=
          swapL_getD_fst items _ _ _ hjlen hclen
        have hbc : (swapL items j c).getD c default = items.getD j default :=
          swapL_getD_snd items _ _ _ hjlen hclen
        have hbo : ∀ k, k ≠ j → k ≠ c →
            (swapL items j c).getD k default = items.getD k default :=
          fun k hk1 hk2 => swapL_getD_other items _ _ k _ hk1 hk2
        apply ih _ c (by omega) (by rw [swapL_length]; exact hlen) (by omega)
        constructor
        · intro i hi1 hic hpic
          by_cases hicq : i = c
          · subst hicq
            rw [hbc, hpar, hbj]
            exact hcmp
          · by_cases hpij : parent_idx i = j
            · have : j * 2 ≤ i := ((parent_idx_interval i j).mp hpij).1
              rw [hbo i (by omega) hicq, hpij, hbj]
              exact hpref i hpij hic hicq
            · by_cases hij : i = j
              · subst hij
                have hplt : parent_idx i < i := parent_idx_lt i (by omega)
                rw [hbj, hbo (parent_idx i) (by omega) (by omega)]
                exact hdown.2 hi1 c (by omega) hle hpar
              · rw [hbo i hij hicq, hbo (parent_idx i) hpij hpic]
                exact hdown.1 i hi1 hic hpij
        · intro hc1 i hi1 hic hpic
          have hcgt : c * 2 ≤ i := ((parent_idx_interval i c).mp hpic).1
          rw [hpar, hbj, hbo i (by omega) (by omega), ← hpic]
          exact hdown.1 i hi1 hic (by rw [hpic]; omega)
    · rw [if_neg hcp]
      have hc2 : ¬ left_child_idx j ≤ count := by
        simpa [children_present] using hcp
      intro i hi1 hic
      have hpi : parent_idx i ≠ j := by
        intro he
        have h3 := (parent_idx_interval i j).mp he
        unfold left_child_idx at hc2
        omega
      exact hdown.1 i hi1 hic hpi

theorem next_heapInv (h : Heap α) (hs : StrictCmp h.comparator)
    (hb : h.count < h.items.length) (hinv : heapInv h.comparator h.count h.items) :
    heapInv h.comparator h.next.2.count h.next.2.items := by
  by_cases hc : h.count = 0
  · rw [next_of_empty h hc]
    exact hinv
  by_cases h1 : h.count = 1
  · obtain ⟨hi2, hc2⟩ := next_snd_one h h1
    rw [hc2]
    intro i hi1 hic
    omega
  · have h2 : 2 ≤ h.count := by omega
    obtain ⟨hi2, hc2⟩ := next_snd_many h h2
    rw [hc2, hi2]
    show heapInv h.comparator (h.count - 1)
      (bubbleDownAux h.comparator (h.count - 1)
        (((h.items.set 1 default).set h.count default).set 1
          ((h.items.set 1 default).getD h.count default)) 1 (h.count - 1 + 1))
    have hgetD2 : ∀ k, k ≠ 1 → k ≠ h.count →
        (((h.items.set 1 default).set h.count default).set 1
          ((h.items.set 1 default).getD h.count default)).getD k default =
        h.items.getD k default := by
      intro k hk1 hkc
      rw [getD_set_of_ne _ _ _ _ _ (Ne.symm hk1), getD_set_of_ne _ _ _ _ _ (Ne.symm hkc),
        getD_set_of_ne _ _ _ _ _ (Ne.symm hk1)]
    apply bubbleDownAux_inv h.comparator hs (h.count - 1) (h.count - 1 + 1) _ 1
      le_rfl (by simp only [List.length_set]; omega) (by omega)
    constructor
    · intro i hi1 hic hpi1
      have hpp : parent_idx i < i := parent_idx_lt i (by omega)
      have hpge : 1 ≤ parent_idx i := by unfold parent_idx at *; omega
      rw [hgetD2 i (by omega) (by omega), hgetD2 (parent_idx i) (by omega) (by omega)]
      exact hinv i hi1 (by omega)
    · intro hx
      exact absurd hx (by omega)

theorem reachable_heapInv {h : Heap α} (hr : Reachable h) :
    StrictCmp h.comparator → heapInv h.comparator h.count h.items := by
  induction hr with
  | new cmp =>
    intro _ i hi1 hic
    have : i ≤ 0 := hic
    omega
  | add v hr ih =>
    intro hs
    exact add_heapInv _ _ hs (reachable_bound hr) (ih hs)
  | next hr ih =>
    intro hs
    rw [next_comparator] at hs
    rw [next_comparator]
    exact next_heapInv _ hs (reachable_bound hr) (ih hs)

/-- Counterexample to claim C2 as stated: with the min-heap's strict
priority `a < b`, adding the equal values 5 and 5 leaves live index 2 with
`priority(items[parent(2)], items[2]) = (5 < 5) = false`. -/
theorem c2_counterexample :
    1 < 2 ∧ 2 ≤ (((Heap.new_min (β := Int)).add 5).add 5).count ∧
    (((Heap.new_min (β := Int)).add 5).add 5).comparator
      ((((Heap.new_min (β := Int)).add 5).add 5).items.getD (parent_idx 2) default)
      ((((Heap.new_min (β := Int)).add 5).add 5).items.getD 2 default) = false := by
  decide

/-- Claim C2 (amended): after every sequence of `add`/extraction calls
from construction, for every live index `i > 1` the child never takes
strict priority over its parent:
`priority(items[i], items[parent(i)])` is false (equivalently, the parent
is less-or-equal / greater-or-equal for min/max heaps). The stated strict
form `priority(items[parent(i)], items[i])` fails on duplicate elements
(see the counterexample). -/
theorem c2_heap_property {h : Heap α} (hr : Reachable h)
    (hs : StrictCmp h.comparator) :
    ∀ i, 1 < i → i ≤ h.count →
      h.comparator (h.items.getD i default)
        (h.items.getD (parent_idx i) default) = false :=
  reachable_heapInv hr hs

/-- Witness for C2 at a concrete reachable heap with two live elements. -/
theorem c2_witness :
    (((Heap.new (minCmp (β := Int))).add 1).add 2).comparator
      ((((Heap.new (minCmp (β := Int))).add 1).add 2).items.getD 2 default)
      ((((Heap.new (minCmp (β := Int))).add 1).add 2).items.getD (parent_idx 2) default)
      = false :=
  c2_heap_property (Reachable.add 2 (Reachable.add 1 (Reachable.new _)))
    strictCmp_minCmp 2 (by decide) (by decide)

/-! ### Order correctness of repeated extraction -/

theorem strictCmp_irrefl {β : Type} {cmp : β → β → Bool} (hs : StrictCmp cmp)
    (a : β) : cmp a a = false := by
  by_cases h : cmp a a = true
  · have hf := hs.asymm a a h
    rw [hf] at h
    exact absurd h Bool.false_ne_true
  · rwa [Bool.not_eq_true] at h

theorem root_min (cmp : α → α → Bool) (hs : StrictCmp cmp) (count : Nat)
    (items : List α) (hinv : heapInv cmp count items) :
    ∀ i, 1 ≤ i → i ≤ count →
      cmp (items.getD i default) (items.getD 1 default) = false := by
  intro i
  induction i using Nat.strong_induction_on with
  | _ i ih =>
    intro h1 hic
    by_cases hi1 : i = 1
    · subst hi1
      exact strictCmp_irrefl hs _
    · have hplt : parent_idx i < i := parent_idx_lt i (by omega)
      have hpge : 1 ≤ parent_idx i := by unfold parent_idx at *; omega
      exact hs.negtrans _ _ _ (hinv i (by omega) hic)
        (ih (parent_idx i) hplt hpge (by omega))

theorem foldl_add_comparator (vs : List α) :
    ∀ h : Heap α, (vs.foldl Heap.add h).comparator = h.comparator := by
  induction vs with
  | nil => intro h; rfl
  | cons v vs ih => intro h; rw [List.foldl_cons, ih, add_comparator]

theorem buildHeap_comparator (cmp : α → α → Bool) (vs : List α) :
    (buildHeap cmp vs).comparator = cmp := by
  show (vs.foldl Heap.add (Heap.new cmp)).comparator = cmp
  rw [foldl_add_comparator]
  rfl

theorem drain_pairwise (cmp : α → α → Bool) (hs : StrictCmp cmp) :
    ∀ (n : Nat) (h : Heap α), h.comparator = cmp → h.count = n →
      h.count < h.items.length → heapInv cmp h.count h.items →
      List.Pairwise (fun a b => cmp b a = false) (drain h n) := by
  intro n
  induction n with
  | zero =>
    intro h _ _ _ _
    exact List.Pairwise.nil
  | succ n ih =>
    intro h hcmp hn hb hinv
    have hfst := next_fst_of_pos h (by omega)
    unfold drain
    rw [show h.next = (some (h.items.getD 1 default), h.next.2) from Prod.ext hfst rfl]
    show List.Pairwise _ (h.items.getD 1 default :: drain h.next.2 n)
    have hinv2 : heapInv cmp h.next.2.count h.next.2.items := by
      have := next_heapInv h (by rw [hcmp]; exact hs) hb (by rw [hcmp]; exact hinv)
      rwa [hcmp] at this
    apply List.Pairwise.cons
    · intro b hbmem
      have hdl : (↑(drain h.next.2 n) : Multiset α) = ↑h.next.2.live :=
        drain_live n h.next.2 (by rw [next_count]; omega) (next_bound h hb)
      have hmem2 : b ∈ h.next.2.live := by
        have hin : b ∈ (↑(drain h.next.2 n) : Multiset α) := Multiset.mem_coe.mpr hbmem
        rw [hdl] at hin
        exact Multiset.mem_coe.mp hin
      have hmemh : b ∈ h.live := by
        have hnl := next_live h (by omega) hb
        have hin : b ∈ (↑h.live : Multiset α) := by
          rw [hnl]
          exact Multiset.mem_add.mpr (Or.inr (Multiset.mem_coe.mpr hmem2))
        exact Multiset.mem_coe.mp hin
      obtain ⟨k, hk⟩ := List.mem_iff_getElem?.mp hmemh
      rw [show h.live = liveL h.count h.items from rfl] at hk
      have hkc : k < h.count := by
        by_contra hkc
        rw [liveL_getElem?_ge _ _ _ (by omega)] at hk
        exact Option.noConfusion hk
      have hbval : h.items.getD (k + 1) default = b := by
        rw [liveL_getElem?_lt _ _ _ hkc] at hk
        rw [List.getD_eq_getElem?_getD, hk]
        rfl
      rw [← hbval]
      exact root_min cmp hs h.count h.items hinv (k + 1) (by omega) (by omega)
    · exact ih h.next.2 (by rw [next_comparator]; exact hcmp)
        (by rw [next_count]; omega) (next_bound h hb) hinv2

/-- Claim C1: draining a heap built by any finite sequence of `add` calls
yields the values in non-decreasing order for a heap constructed with the
min comparator (`new_min` / `MinHeap::new`), and in non-increasing order
for a heap constructed with the max comparator (`new_max` /
`MaxHeap::new`), over any linearly ordered element type. -/
theorem c1_order_correctness {β : Type} [Inhabited β] [LinearOrder β] (vs : List β) :
    List.Sorted (· ≤ ·) (drain (buildHeap minCmp vs) (buildHeap minCmp vs).len) ∧
    List.Sorted (· ≥ ·) (drain (buildHeap maxCmp vs) (buildHeap maxCmp vs).len) := by
  constructor
  · have hinv := reachable_heapInv (buildHeap_reachable minCmp vs)
      (by rw [buildHeap_comparator]; exact strictCmp_minCmp)
    rw [buildHeap_comparator] at hinv
    have hp := drain_pairwise minCmp strictCmp_minCmp (buildHeap minCmp vs).count
      (buildHeap minCmp vs) (buildHeap_comparator _ _) rfl
      (reachable_bound (buildHeap_reachable minCmp vs)) hinv
    exact List.Pairwise.imp
      (fun hab => not_lt.mp (of_decide_eq_false hab)) hp
  · have hinv := reachable_heapInv (buildHeap_reachable maxCmp vs)
      (by rw [buildHeap_comparator]; exact strictCmp_maxCmp)
    rw [buildHeap_comparator] at hinv
    have hp := drain_pairwise maxCmp strictCmp_maxCmp (buildHeap maxCmp vs).count
      (buildHeap maxCmp vs) (buildHeap_comparator _ _) rfl
      (reachable_bound (buildHeap_reachable maxCmp vs)) hinv
    exact List.Pairwise.imp
      (fun hab => not_lt.mp (of_decide_eq_false hab)) hp

end HeapSpec
